import Mathlib

/-!
# Verification of the simple-mod-sync translator scripts

Shallow embedding of the two translator scripts of simple-mod-sync:

* `src/translators/modrinth_versions.py` — resolves Modrinth version ids
  into download records via two batched registry calls (namespace `Modrinth`);
* `src/translators/static.py` — classifies local `.jar`/`.zip` archives
  and derives records for statically hosted content (namespace `StaticT`).

Python `dict`s are modelled as insertion-ordered association lists with
overwrite-on-insert (`dinsert` / `dlookup`); exceptions (`KeyError`,
`raise`) are modelled with `Except`; HTTP responses are model inputs, with
`none` standing for a non-success status; `os.urandom` output is a model
input (a list of byte values).  Python strings manipulated character by
character are modelled as `List Char`; strings used only as opaque
identifiers are modelled as `String`.
-/

namespace Modrinth

/-- The `ContentType` enum shared by both scripts. -/
inductive ContentType where
  | mod
  | resourcepack
  | datapack
  | shader
deriving DecidableEq, Repr

/-- The `Content` class: a single record of the sync file. -/
structure Content where
  url : String
  name : String
  version : String
  type : ContentType
deriving DecidableEq, Repr

/-- The `SyncData` class: schema version (constructor default 3) and record list. -/
structure SyncData where
  contents : List Content
  version : Nat
deriving DecidableEq, Repr

/-- Python `dict` insertion: overwrite in place if the key exists, append otherwise. -/
def dinsert {α : Type} (k : String) (v : α) : List (String × α) → List (String × α)
  | [] => [(k, v)]
  | (k2, v2) :: rest => if k2 = k then (k, v) :: rest else (k2, v2) :: dinsert k v rest

/-- Python `dict` lookup (keys are unique under `dinsert`). -/
def dlookup {α : Type} (k : String) : List (String × α) → Option α
  | [] => none
  | (k2, v2) :: rest => if k2 = k then some v2 else dlookup k rest

/-- One element of a version's `files` array: `file.get('primary')` truthiness and
`file.get('url', '')`. -/
structure FileEntry where
  primary : Bool
  url : Option String
deriving DecidableEq, Repr

/-- One element of the phase-1 (`versions`) response body:
`id`, `version.get('project_id', '')`, `files`, `version.get('loaders', [])`. -/
structure VersionInfo where
  id : String
  project_id : Option String
  files : List FileEntry
  loaders : List String
deriving DecidableEq, Repr

/-- One element of the phase-2 (`projects`) response body:
`id`, `project.get('title', project.get('slug', 'UNKNOWN'))`. -/
structure ProjectInfo where
  id : String
  title : Option String
  slug : Option String
deriving DecidableEq, Repr

/-- A `files_info` entry built by `__get_versions_files`: primary file url and type. -/
structure FileInfo where
  url : String
  type : ContentType
deriving DecidableEq, Repr

/-- The class-level `Parser.id_map` dictionary (version id → project id). -/
abbrev IdMap := List (String × String)

/-- `Parser.__get_project_type`: scan the loader tags in order; an unrecognized
tag is skipped; no recognized tag defaults to `mod`. -/
def get_project_type : List String → ContentType
  | [] => ContentType.mod
  | loader :: rest =>
    if loader ∈ ["fabric", "quilt", "forge", "neoforge"] then ContentType.mod
    else if loader ∈ ["iris", "optifine"] then ContentType.shader
    else if loader = "datapack" then ContentType.datapack
    else if loader = "minecraft" then ContentType.resourcepack
    else get_project_type rest

/-- `Parser.__init_id_map`: record every input version id in the class-level
`id_map` with an empty project id, keeping all other entries. -/
def init_id_map (versions : List String) (idMap : IdMap) : IdMap :=
  versions.foldl (fun m v => dinsert v "" m) idMap

/-- `Parser.__get_versions_files`: on a 200 response, fold over the returned
versions, recording each version's project id in `id_map` and its primary file
url and loader-derived type in `files`; on any other status, return an empty
`files` dict and leave `id_map` untouched. -/
def get_versions_files (resp : Option (List VersionInfo)) (idMap : IdMap) :
    List (String × FileInfo) × IdMap :=
  match resp with
  | none => ([], idMap)
  | some versions_info =>
    versions_info.foldl
      (fun acc v =>
        let m := dinsert v.id (v.project_id.getD "") acc.2
        let file_url :=
          match v.files.find? (fun f => f.primary) with
          | some f => f.url.getD ""
          | none => ""
        (dinsert v.id ⟨file_url, get_project_type v.loaders⟩ acc.1, m))
      ([], idMap)

/-- `Parser.__get_projects_info`: on a 200 response, map each returned project's
id to its title (falling back to slug, then `"UNKNOWN"`); otherwise empty. -/
def get_projects_info (resp : Option (List ProjectInfo)) : List (String × String) :=
  match resp with
  | none => []
  | some projects =>
    projects.foldl
      (fun acc p => dinsert p.id (p.title.getD (p.slug.getD "UNKNOWN")) acc) []

/-- One iteration of the `for version in self.versions` join loop of
`Parser.parse`.  The two raising dict indexes `self.id_map[version]` and
`projects_info[...]` are modelled as `Except.error` (Python `KeyError`). -/
def sync_step (files_info : List (String × FileInfo)) (idMap : IdMap)
    (projects_info : List (String × String)) (acc : List Content) (version : String) :
    Except String (List Content) :=
  match dlookup version files_info with
  | none => Except.ok acc
  | some fi =>
    match dlookup version idMap with
    | none => Except.error "KeyError: id_map"
    | some pid =>
      match dlookup pid projects_info with
      | none => Except.error "KeyError: projects_info"
      | some name => Except.ok (acc ++ [⟨fi.url, name, version, fi.type⟩])

/-- The join loop of `Parser.parse`, starting from the empty `contents` list. -/
def build_contents (versions : List String) (files_info : List (String × FileInfo))
    (idMap : IdMap) (projects_info : List (String × String)) :
    Except String (List Content) :=
  versions.foldlM (sync_step files_info idMap projects_info) []

/-- `Parser.parse`: run phase 1 (updating `id_map`), run phase 2, then join.
`idMap0` is the class-level `id_map` state at the time of the call (after
construction it contains every input version id). -/
def parse (versions : List String) (idMap0 : IdMap)
    (resp1 : Option (List VersionInfo)) (resp2 : Option (List ProjectInfo)) :
    Except String SyncData :=
  (build_contents versions (get_versions_files resp1 idMap0).1
      (get_versions_files resp1 idMap0).2 (get_projects_info resp2)).map
    (fun cs => ⟨cs, 3⟩)

/-- The loader→type priority table as the spec states it (comparison
definition, written from the spec's words, not from the code). -/
def loaderTypeSpec (loader : String) : Option ContentType :=
  if loader ∈ ["fabric", "quilt", "forge", "neoforge"] then some ContentType.mod
  else if loader ∈ ["iris", "optifine"] then some ContentType.shader
  else if loader = "datapack" then some ContentType.datapack
  else if loader = "minecraft" then some ContentType.resourcepack
  else none

end Modrinth

namespace StaticT

/-- The ordered candidate manifest paths of `Parser.__get_manifest`. -/
def paths_to_try : List String :=
  ["fabric.mod.json",
   "quilt.mod.json",
   "META-INF/mods.toml",
   "META-INF/neoforge.mods.toml",
   "shaders/",
   "data/",
   "pack.mcmeta"]

/-- The two legacy `MANIFEST.MF` fallback locations of `Parser.__get_manifest`. -/
def manifest_fallbacks : List String :=
  ["MANIFEST.MF", "META-INF/MANIFEST.MF"]

/-- The `for path in ...: try: archive.getinfo(path); return path; except: pass`
loop: the first candidate that is a member of the archive.  An archive is
modelled by its list of member names. -/
def find_first_member (archive : List String) : List String → Option String
  | [] => none
  | p :: rest => if p ∈ archive then some p else find_first_member archive rest

/-- `Parser.__get_manifest`: try the precedence list, then (only with
`accept_mf`) the `MANIFEST.MF` fallbacks; raising is modelled with `Except`. -/
def get_manifest (archive : List String) (accept_mf : Bool) : Except String String :=
  match find_first_member archive paths_to_try with
  | some p => Except.ok p
  | none =>
    if !accept_mf then Except.error "No manifest found"
    else
      match find_first_member archive manifest_fallbacks with
      | some p => Except.ok p
      | none => Except.error "Absolutely no manifest found"

/-- The `url_base_path` configuration constant. -/
def url_base_path : List Char := "https://example.com/static/content/".toList

/-- Python `str.rfind(sep)` for a one-character pattern: index of the last
occurrence, `none` when absent (Python returns -1). -/
def rfind (sep : Char) : List Char → Option Nat
  | [] => none
  | c :: cs =>
    match rfind sep cs with
    | some i => some (i + 1)
    | none => if c = sep then some 0 else none

/-- The relative-path computation of `Parser.__get_uri`: the substring after
the last slash, with the (unreachable) extra leading-slash strip kept. -/
def relative_path (filename : List Char) : List Char :=
  match rfind '/' filename with
  | some i =>
    if ((filename.drop (i + 1)).head? = some '/') then (filename.drop (i + 1)).drop 1
    else filename.drop (i + 1)
  | none => filename

/-- `if correction.startswith("/"): correction = correction[1:]` -/
def drop_leading_slash (c : List Char) : List Char :=
  if c.head? = some '/' then c.drop 1 else c

/-- `if not correction.endswith("/"): correction = correction + "/"` -/
def add_trailing_slash (c : List Char) : List Char :=
  if c.getLast? = some '/' then c else c ++ ['/']

/-- The correction normalization of `Parser.__get_uri`: when non-empty, strip
one leading slash if present, then append a trailing slash if absent. -/
def fix_correction (correction : List Char) : List Char :=
  if correction.length ≠ 0 then add_trailing_slash (drop_leading_slash correction)
  else correction

/-- `Parser.__get_uri`: base url, then the fixed correction, then the
relative path. -/
def get_uri (filename correction : List Char) : List Char :=
  url_base_path ++ fix_correction correction ++ relative_path filename

/-- Python `str.split(sep)` for a one-character separator (keeps empty
segments, `[""]` on the empty string). -/
def py_split (sep : Char) : List Char → List (List Char)
  | [] => [[]]
  | c :: cs =>
    if c = sep then [] :: py_split sep cs
    else
      match py_split sep cs with
      | [] => [[c]]
      | s :: rest => (c :: s) :: rest

/-- `Parser.__get_name_from_path`:
`"".join((path.split("/")[-1]).split(".")[:-1])`. -/
def get_name_from_path (path : List Char) : List Char :=
  ((py_split '.' ((py_split '/' path).getLastD [])).dropLast).flatten

/-- Fuel-driven decimal digit expansion (most significant digit first). -/
def dec_digits_aux : Nat → Nat → List Nat
  | 0, _ => []
  | fuel + 1, n => if n < 10 then [n] else dec_digits_aux fuel (n / 10) ++ [n % 10]

/-- Python `str(...)` of a nonnegative int: its decimal digits, unpadded. -/
def dec_digits (n : Nat) : List Nat := dec_digits_aux (n + 1) n

/-- `Parser.__get_rand_version`: `str(int.from_bytes(os.urandom(4), "big"))`,
with the random bytes as model input and the string as its digit list. -/
def get_rand_version (randomBytes : List Nat) : List Nat :=
  dec_digits (randomBytes.foldl (fun acc b => acc * 256 + b) 0)

/-- The final path segment (spec: "the path's final path segment, the bare
filename"), via the split used by the source. -/
def basename (path : List Char) : List Char :=
  (py_split '/' path).getLastD []

/-- Remove every leading slash (spec side). -/
def strip_leading_slashes : List Char → List Char
  | [] => []
  | c :: cs => if c = '/' then strip_leading_slashes cs else c :: cs

/-- The spec's correction normalization, written from the spec's words: no
leading slash and exactly one trailing slash. -/
def normalized_correction (c : List Char) : List Char :=
  (strip_leading_slashes (strip_leading_slashes c).reverse).reverse ++ ['/']

/-- The final segment's stem boundary: everything before the last dot
(empty when there is no dot). -/
def stem (t : List Char) : List Char :=
  match rfind '.' t with
  | some i => t.take i
  | none => []

/-- Remove every dot (spec side, for the amended C8). -/
def remove_dots : List Char → List Char
  | [] => []
  | c :: cs => if c = '.' then remove_dots cs else c :: remove_dots cs

/-- The value of a decimal digit list (spec side: what a string of digits
denotes). -/
def digits_val (l : List Nat) : Nat := l.foldl (fun a d => 10 * a + d) 0

end StaticT

namespace Modrinth

/-- C4: the loader-to-type mapping returns the outcome of the first tag that
matches the fixed priority table (fabric/quilt/forge/neoforge → mod;
iris/optifine → shader; datapack → datapack; minecraft → resourcepack) and
defaults to mod when no tag matches; in particular `["fabric"]` yields mod,
`["iris"]` yields shader, `["datapack"]` yields datapack, `["minecraft"]`
yields resourcepack, and `[]` yields mod. -/
theorem get_project_type_follows_priority_table :
    (∀ loaders : List String,
        get_project_type loaders = (loaders.findSome? loaderTypeSpec).getD ContentType.mod)
    ∧ get_project_type ["fabric"] = ContentType.mod
    ∧ get_project_type ["iris"] = ContentType.shader
    ∧ get_project_type ["datapack"] = ContentType.datapack
    ∧ get_project_type ["minecraft"] = ContentType.resourcepack
    ∧ get_project_type [] = ContentType.mod := by
  refine ⟨?_, by decide, by decide, by decide, by decide, by decide⟩
  intro loaders
  induction loaders with
  | nil => rfl
  | cons l rest ih =>
    rw [get_project_type, List.findSome?_cons]
    by_cases h1 : l ∈ ["fabric", "quilt", "forge", "neoforge"]
    · simp [loaderTypeSpec, h1]
    · by_cases h2 : l ∈ ["iris", "optifine"]
      · simp [loaderTypeSpec, h1, h2]
      · by_cases h3 : l = "datapack"
        · simp [loaderTypeSpec, h1, h2, h3]
        · by_cases h4 : l = "minecraft"
          · simp [loaderTypeSpec, h1, h2, h3, h4]
          · simp [loaderTypeSpec, h1, h2, h3, h4, ih]

theorem dlookup_dinsert_self {α : Type} (k : String) (v : α) (m : List (String × α)) :
    dlookup k (dinsert k v m) = some v := by
  induction m with
  | nil => simp [dinsert, dlookup]
  | cons p rest ih =>
    obtain ⟨k2, v2⟩ := p
    by_cases h : k2 = k
    · simp [dinsert, dlookup, h]
    · simp [dinsert, dlookup, h, ih]

theorem dlookup_dinsert_ne {α : Type} {k k2 : String} (v : α) (m : List (String × α))
    (h : k ≠ k2) : dlookup k (dinsert k2 v m) = dlookup k m := by
  have h2 : ¬(k2 = k) := fun he => h he.symm
  induction m with
  | nil => simp [dinsert, dlookup, h2]
  | cons p rest ih =>
    obtain ⟨k3, v3⟩ := p
    by_cases h3 : k3 = k2
    · subst h3
      simp [dinsert, dlookup, h2]
    · simp only [dinsert, dlookup, if_neg h3]
      by_cases h4 : k3 = k
      · simp [dlookup, h4]
      · simp [dlookup, h4, ih]

theorem dlookup_init_id_map_of_not_mem (versions : List String) (m : IdMap)
    (k : String) (h : k ∉ versions) :
    dlookup k (init_id_map versions m) = dlookup k m := by
  induction versions generalizing m with
  | nil => rfl
  | cons v rest ih =>
    have hk : k ≠ v := fun he => h (he ▸ List.mem_cons_self v rest)
    have hrest : k ∉ rest := fun he => h (List.mem_cons_of_mem v he)
    show dlookup k (init_id_map rest (dinsert v "" m)) = dlookup k m
    rw [ih (dinsert v "" m) hrest, dlookup_dinsert_ne _ m hk]

theorem dlookup_init_id_map_isSome_mono (versions : List String) (m : IdMap)
    (k : String) (h : (dlookup k m).isSome) :
    (dlookup k (init_id_map versions m)).isSome := by
  induction versions generalizing m with
  | nil => exact h
  | cons v rest ih =>
    show (dlookup k (init_id_map rest (dinsert v "" m))).isSome
    refine ih (dinsert v "" m) ?_
    by_cases hk : k = v
    · subst hk; rw [dlookup_dinsert_self]; rfl
    · rw [dlookup_dinsert_ne _ m hk]; exact h

theorem dlookup_init_id_map_isSome_of_mem (versions : List String) (m : IdMap)
    (k : String) (h : k ∈ versions) :
    (dlookup k (init_id_map versions m)).isSome := by
  induction versions generalizing m with
  | nil => cases h
  | cons v rest ih =>
    show (dlookup k (init_id_map rest (dinsert v "" m))).isSome
    by_cases hk : k ∈ rest
    · exact ih (dinsert v "" m) hk
    · have hv : k = v := by
        rcases List.mem_cons.mp h with h1 | h2
        · exact h1
        · exact absurd h2 hk
      subst hv
      refine dlookup_init_id_map_isSome_mono rest (dinsert k "" m) k ?_
      rw [dlookup_dinsert_self]; rfl

/-- C10: the class-level `id_map` survives across `Parser` constructions.
Constructing a second `Parser` (whose `__init_id_map` runs over the shared
dictionary) leaves every entry whose key is not among its own input versions
unchanged, and every version id recorded by the first construction is still
present in the dictionary afterwards. -/
theorem id_map_shared_across_constructions :
    (∀ (versions1 versions2 : List String) (m0 : IdMap) (k : String),
        k ∉ versions2 →
        dlookup k (init_id_map versions2 (init_id_map versions1 m0)) =
          dlookup k (init_id_map versions1 m0))
    ∧ (∀ (versions1 versions2 : List String) (m0 : IdMap) (k : String),
        k ∈ versions1 →
        (dlookup k (init_id_map versions2 (init_id_map versions1 m0))).isSome) := by
  constructor
  · intro versions1 versions2 m0 k h
    exact dlookup_init_id_map_of_not_mem versions2 (init_id_map versions1 m0) k h
  · intro versions1 versions2 m0 k h
    exact dlookup_init_id_map_isSome_mono versions2 (init_id_map versions1 m0) k
      (dlookup_init_id_map_isSome_of_mem versions1 m0 k h)

/-- Witness for C10 at a concrete pair of constructions. -/
theorem id_map_shared_across_constructions_witness :
    dlookup "versionA" (init_id_map ["versionB"] (init_id_map ["versionA"] [])) =
      dlookup "versionA" (init_id_map ["versionA"] [])
    ∧ (dlookup "versionA" (init_id_map ["versionB"] (init_id_map ["versionA"] []))).isSome :=
  ⟨id_map_shared_across_constructions.1 ["versionA"] ["versionB"] [] "versionA" (by decide),
   id_map_shared_across_constructions.2 ["versionA"] ["versionB"] [] "versionA" (by decide)⟩

theorem except_bind_ok {ε α β : Type} (a : α) (f : α → Except ε β) :
    (Except.ok a >>= f) = f a := rfl

theorem except_bind_error {ε α β : Type} (e : ε) (f : α → Except ε β) :
    (Except.error e >>= f) = Except.error e := rfl

theorem foldlM_sync_step_skip (files : List (String × FileInfo)) (idMap : IdMap)
    (projects : List (String × String)) :
    ∀ (versions : List String) (acc : List Content),
      (∀ v ∈ versions, dlookup v files = none) →
      versions.foldlM (sync_step files idMap projects) acc = Except.ok acc := by
  intro versions
  induction versions with
  | nil => intro acc _; rfl
  | cons v rest ih =>
    intro acc h
    rw [List.foldlM_cons]
    have hstep : sync_step files idMap projects acc v = Except.ok acc := by
      unfold sync_step; rw [h v (List.mem_cons_self v rest)]
    rw [hstep, except_bind_ok]
    exact ih acc (fun w hw => h w (List.mem_cons_of_mem v hw))

theorem foldlM_sync_step_error_of_empty_projects (files : List (String × FileInfo))
    (idMap : IdMap) :
    ∀ (versions : List String) (acc : List Content),
      (∃ v ∈ versions, (dlookup v files).isSome) →
      ∃ e, versions.foldlM (sync_step files idMap []) acc = Except.error e := by
  intro versions
  induction versions with
  | nil =>
    intro acc h
    obtain ⟨v, hv, _⟩ := h
    cases hv
  | cons v rest ih =>
    intro acc h
    rw [List.foldlM_cons]
    cases hfv : dlookup v files with
    | some fi =>
      cases him : dlookup v idMap with
      | some pid =>
        refine ⟨"KeyError: projects_info", ?_⟩
        have hstep : sync_step files idMap [] acc v = Except.error "KeyError: projects_info" := by
          unfold sync_step; rw [hfv, him]; rfl
        rw [hstep]; rfl
      | none =>
        refine ⟨"KeyError: id_map", ?_⟩
        have hstep : sync_step files idMap [] acc v = Except.error "KeyError: id_map" := by
          unfold sync_step; rw [hfv, him]
        rw [hstep]; rfl
    | none =>
      obtain ⟨w, hw, hsome⟩ := h
      have hwrest : w ∈ rest := by
        rcases List.mem_cons.mp hw with h1 | h2
        · subst h1; rw [hfv] at hsome; simp at hsome
        · exact h2
      have hstep : sync_step files idMap [] acc v = Except.ok acc := by
        unfold sync_step; rw [hfv]
      rw [hstep, except_bind_ok]
      exact ih acc ⟨w, hwrest, hsome⟩

/-- C1 (amended): a phase-1 (versions) failure makes `parse` return a `SyncData`
with an empty record list, whatever phase 2 does.  A phase-2 (projects) failure
lets `parse` complete — with no records — only when no input version id has
phase-1 data; as soon as some input version id has phase-1 data, `parse`
raises a `KeyError` at the per-record name lookup instead of completing. -/
theorem parse_degrades_on_batch_failure :
    (∀ (versions : List String) (idMap0 : IdMap) (resp2 : Option (List ProjectInfo)),
        parse versions idMap0 none resp2 = Except.ok ⟨[], 3⟩)
    ∧ (∀ (versions : List String) (idMap0 : IdMap) (resp1 : Option (List VersionInfo)),
        (∀ v ∈ versions, dlookup v (get_versions_files resp1 idMap0).1 = none) →
        parse versions idMap0 resp1 none = Except.ok ⟨[], 3⟩)
    ∧ (∀ (versions : List String) (idMap0 : IdMap) (resp1 : Option (List VersionInfo)),
        (∃ v ∈ versions, (dlookup v (get_versions_files resp1 idMap0).1).isSome) →
        ∃ e, parse versions idMap0 resp1 none = Except.error e) := by
  refine ⟨?_, ?_, ?_⟩
  · intro versions idMap0 resp2
    have h := foldlM_sync_step_skip (get_versions_files none idMap0).1
      (get_versions_files none idMap0).2 (get_projects_info resp2) versions []
      (fun v _ => rfl)
    unfold parse build_contents
    rw [h]
    rfl
  · intro versions idMap0 resp1 hnone
    have h := foldlM_sync_step_skip (get_versions_files resp1 idMap0).1
      (get_versions_files resp1 idMap0).2 (get_projects_info none) versions [] hnone
    unfold parse build_contents
    rw [h]
    rfl
  · intro versions idMap0 resp1 hsome
    obtain ⟨e, he⟩ := foldlM_sync_step_error_of_empty_projects
      (get_versions_files resp1 idMap0).1 (get_versions_files resp1 idMap0).2
      versions [] hsome
    refine ⟨e, ?_⟩
    unfold parse build_contents
    rw [show get_projects_info none = ([] : List (String × String)) from rfl]
    rw [he]
    rfl

/-- Witness for C1 at concrete inputs: a failed phase 1 with one version id,
a failed phase 2 with no phase-1 data, and a failed phase 2 with phase-1 data
for `V1` (which aborts). -/
theorem parse_degrades_on_batch_failure_witness :
    parse ["V1"] [] none none = Except.ok ⟨[], 3⟩
    ∧ parse [] [] (some []) none = Except.ok ⟨[], 3⟩
    ∧ ∃ e, parse ["V1"] (init_id_map ["V1"] [])
        (some [⟨"V1", some "P1", [⟨true, some "https://cdn/u.jar"⟩], ["fabric"]⟩])
        none = Except.error e :=
  ⟨parse_degrades_on_batch_failure.1 ["V1"] [] none,
   parse_degrades_on_batch_failure.2.1 [] [] (some []) (by intro v hv; cases hv),
   parse_degrades_on_batch_failure.2.2 ["V1"] (init_id_map ["V1"] [])
     (some [⟨"V1", some "P1", [⟨true, some "https://cdn/u.jar"⟩], ["fabric"]⟩])
     ⟨"V1", by decide, by decide⟩⟩

/-- C1 counterexample: with one input version id that the registry recognizes
in phase 1 and a failed phase-2 batch call, `parse` does not complete with an
empty record set — it raises a `KeyError` at the name lookup. -/
theorem parse_phase2_failure_aborts :
    parse ["V1"] (init_id_map ["V1"] [])
      (some [⟨"V1", some "P1", [⟨true, some "https://cdn/u.jar"⟩], ["fabric"]⟩])
      none = Except.error "KeyError: projects_info" := rfl

theorem foldlM_sync_step_filter (files : List (String × FileInfo)) (idMap : IdMap)
    (projects : List (String × String)) :
    ∀ (versions : List String) (acc : List Content),
      versions.foldlM (sync_step files idMap projects) acc
        = (versions.filter (fun v => (dlookup v files).isSome)).foldlM
            (sync_step files idMap projects) acc := by
  intro versions
  induction versions with
  | nil => intro acc; rfl
  | cons v rest ih =>
    intro acc
    rw [List.foldlM_cons, List.filter_cons]
    by_cases hv : (dlookup v files).isSome
    · rw [if_pos hv, List.foldlM_cons]
      cases hstep : sync_step files idMap projects acc v with
      | error e => rfl
      | ok acc2 => rw [except_bind_ok, except_bind_ok, ih acc2]
    · have hvnone : dlookup v files = none := by
        cases h2 : dlookup v files with
        | none => rfl
        | some f => rw [h2] at hv; simp at hv
      rw [if_neg hv]
      have hstep : sync_step files idMap projects acc v = Except.ok acc := by
        unfold sync_step; rw [hvnone]
      rw [hstep, except_bind_ok, ih acc]

/-- C2 (amended): a version id the phase-1 response does not recognize is
silently excluded — `parse` is unchanged when its input list is filtered down
to the ids with phase-1 data, so the remaining items are still emitted.  A
project id absent from the phase-2 response is not silently excluded: the name
lookup of any item whose project id is missing raises a `KeyError`. -/
theorem parse_skips_unknown_versions :
    (∀ (versions : List String) (idMap0 : IdMap) (resp1 : Option (List VersionInfo))
        (resp2 : Option (List ProjectInfo)),
        parse versions idMap0 resp1 resp2
          = parse (versions.filter
              (fun v => (dlookup v (get_versions_files resp1 idMap0).1).isSome))
              idMap0 resp1 resp2)
    ∧ (∀ (vid pid url : String) (loaders : List String) (idMap0 : IdMap)
        (resp2 : Option (List ProjectInfo)),
        dlookup pid (get_projects_info resp2) = none →
        parse [vid] idMap0 (some [⟨vid, some pid, [⟨true, some url⟩], loaders⟩]) resp2
          = Except.error "KeyError: projects_info") := by
  constructor
  · intro versions idMap0 resp1 resp2
    unfold parse build_contents
    rw [foldlM_sync_step_filter (get_versions_files resp1 idMap0).1
      (get_versions_files resp1 idMap0).2 (get_projects_info resp2) versions []]
  · intro vid pid url loaders idMap0 resp2 hnone
    unfold parse build_contents
    have hfiles : (get_versions_files
        (some [⟨vid, some pid, [⟨true, some url⟩], loaders⟩]) idMap0).1
        = [(vid, ⟨url, get_project_type loaders⟩)] := rfl
    have hmap : (get_versions_files
        (some [⟨vid, some pid, [⟨true, some url⟩], loaders⟩]) idMap0).2
        = dinsert vid pid idMap0 := rfl
    rw [hfiles, hmap, List.foldlM_cons]
    have hstep : sync_step [(vid, ⟨url, get_project_type loaders⟩)]
        (dinsert vid pid idMap0) (get_projects_info resp2) [] vid
        = Except.error "KeyError: projects_info" := by
      simp [sync_step, dlookup, dlookup_dinsert_self, hnone]
    rw [hstep]
    rfl

/-- Witness for C2: `V2` is unknown to phase 1 and gets filtered away, and a
successful phase-2 response that omits project `P1` makes `parse` raise. -/
theorem parse_skips_unknown_versions_witness :
    parse ["V1", "V2"] [] (some []) (some [])
      = parse (["V1", "V2"].filter
          (fun v => (dlookup v (get_versions_files (some []) []).1).isSome))
          [] (some []) (some [])
    ∧ parse ["V1"] (init_id_map ["V1"] [])
        (some [⟨"V1", some "P1", [⟨true, some "https://cdn/u.jar"⟩], ["fabric"]⟩])
        (some []) = Except.error "KeyError: projects_info" :=
  ⟨parse_skips_unknown_versions.1 ["V1", "V2"] [] (some []) (some []),
   parse_skips_unknown_versions.2 "V1" "P1" "https://cdn/u.jar" ["fabric"]
     (init_id_map ["V1"] []) (some []) (by decide)⟩

/-- C2 counterexample: the registry knows version `V1` (phase 1) but has no
knowledge of its project `P1` (phase 2 succeeds without it); the claim says the
item is silently excluded, but `parse` raises a `KeyError` instead. -/
theorem parse_missing_project_raises :
    parse ["V1"] (init_id_map ["V1"] [])
      (some [⟨"V1", some "P1", [⟨true, some "https://cdn/u.jar"⟩], ["fabric"]⟩])
      (some []) = Except.error "KeyError: projects_info" := rfl

theorem foldlM_sync_step_join (files : List (String × FileInfo)) (idMap : IdMap)
    (projects : List (String × String)) :
    ∀ (versions : List String) (acc : List Content),
      (∀ v ∈ versions, (dlookup v files).isSome →
          ((dlookup v idMap).bind (fun pid => dlookup pid projects)).isSome) →
      versions.foldlM (sync_step files idMap projects) acc
        = Except.ok (acc ++ versions.filterMap (fun v =>
            (dlookup v files).bind (fun f =>
              (dlookup v idMap).bind (fun pid =>
                (dlookup pid projects).map (fun name =>
                  ⟨f.url, name, v, f.type⟩))))) := by
  intro versions
  induction versions with
  | nil => intro acc _; simp only [List.filterMap_nil, List.append_nil]; rfl
  | cons v rest ih =>
    intro acc h
    have hrest : ∀ w ∈ rest, (dlookup w files).isSome →
        ((dlookup w idMap).bind (fun pid => dlookup pid projects)).isSome :=
      fun w hw => h w (List.mem_cons_of_mem v hw)
    have hjoin := h v (List.mem_cons_self v rest)
    rw [List.foldlM_cons, List.filterMap_cons]
    cases hf : dlookup v files with
    | none =>
      have hstep : sync_step files idMap projects acc v = Except.ok acc := by
        simp [sync_step, hf]
      rw [hstep, except_bind_ok]
      simp only [Option.none_bind]
      exact ih acc hrest
    | some f =>
      rw [hf] at hjoin
      have hjoin2 := hjoin rfl
      cases hm : dlookup v idMap with
      | none => rw [hm] at hjoin2; simp at hjoin2
      | some pid =>
        cases hp : dlookup pid projects with
        | none =>
          rw [hm] at hjoin2
          simp only [Option.some_bind] at hjoin2
          rw [hp] at hjoin2
          simp at hjoin2
        | some name =>
          have hstep : sync_step files idMap projects acc v
              = Except.ok (acc ++ [⟨f.url, name, v, f.type⟩]) := by
            simp [sync_step, hf, hm, hp]
          rw [hstep, except_bind_ok]
          simp only [Option.some_bind, hm, hp, Option.map_some']
          rw [ih _ hrest]
          simp

/-- C5: when every phase-1-recognized input id can be joined to a project name
(the benign configuration the claim describes), `parse` emits exactly one
record per input identifier with phase-1 data, in the original input order,
each combining the phase-1 url/type with the phase-2 name looked up through
`id_map`; identifiers without phase-1 data contribute nothing. -/
theorem parse_join_emits_per_phase1 (versions : List String) (idMap0 : IdMap)
    (resp1 : Option (List VersionInfo)) (resp2 : Option (List ProjectInfo))
    (h : ∀ v ∈ versions, (dlookup v (get_versions_files resp1 idMap0).1).isSome →
        ((dlookup v (get_versions_files resp1 idMap0).2).bind
          (fun pid => dlookup pid (get_projects_info resp2))).isSome) :
    parse versions idMap0 resp1 resp2
      = Except.ok ⟨versions.filterMap (fun v =>
          (dlookup v (get_versions_files resp1 idMap0).1).bind (fun f =>
            (dlookup v (get_versions_files resp1 idMap0).2).bind (fun pid =>
              (dlookup pid (get_projects_info resp2)).map (fun name =>
                ⟨f.url, name, v, f.type⟩)))), 3⟩ := by
  unfold parse build_contents
  rw [foldlM_sync_step_join (get_versions_files resp1 idMap0).1
    (get_versions_files resp1 idMap0).2 (get_projects_info resp2) versions [] h]
  rfl

/-- Witness for C5: the claim's concrete instance — inputs `["V1", "V2"]`,
phase-1 data only for `V1`, phase-2 data only for `V1`'s project — yields
exactly one record, for `V1`. -/
theorem parse_join_emits_per_phase1_witness :
    parse ["V1", "V2"] (init_id_map ["V1", "V2"] [])
      (some [⟨"V1", some "P1", [⟨true, some "https://cdn/v1.jar"⟩], ["fabric"]⟩])
      (some [⟨"P1", some "Project One", none⟩])
      = Except.ok ⟨[⟨"https://cdn/v1.jar", "Project One", "V1", ContentType.mod⟩], 3⟩ :=
  (parse_join_emits_per_phase1 ["V1", "V2"] (init_id_map ["V1", "V2"] [])
    (some [⟨"V1", some "P1", [⟨true, some "https://cdn/v1.jar"⟩], ["fabric"]⟩])
    (some [⟨"P1", some "Project One", none⟩]) (by decide)).trans rfl

end Modrinth

namespace StaticT

theorem find_first_member_eq_get (archive : List String) :
    ∀ (l : List String) (k : Nat) (hk : k < l.length),
      l.get ⟨k, hk⟩ ∈ archive → (∀ q ∈ l.take k, q ∉ archive) →
      find_first_member archive l = some (l.get ⟨k, hk⟩) := by
  intro l
  induction l with
  | nil => intro k hk; cases hk
  | cons p rest ih =>
    intro k hk hmem hbefore
    cases k with
    | zero =>
      have hp : p ∈ archive := hmem
      unfold find_first_member
      rw [if_pos hp]
      rfl
    | succ k2 =>
      have hp : p ∉ archive := hbefore p (by simp [List.take_succ_cons])
      unfold find_first_member
      rw [if_neg hp]
      exact ih k2 (Nat.lt_of_succ_lt_succ hk) hmem
        (fun q hq => hbefore q (by simp [List.take_succ_cons, hq]))

theorem find_first_member_eq_none (archive : List String) :
    ∀ l : List String, (∀ q ∈ l, q ∉ archive) → find_first_member archive l = none := by
  intro l
  induction l with
  | nil => intro _; rfl
  | cons p rest ih =>
    intro h
    unfold find_first_member
    rw [if_neg (h p (List.mem_cons_self p rest))]
    exact ih (fun q hq => h q (List.mem_cons_of_mem p hq))

/-- C3: the manifest locator tests the fixed precedence list in order and
returns the first member present: if the archive contains the k-th candidate
and none of the earlier ones, that candidate is returned (so an archive with
both `fabric.mod.json` and `pack.mcmeta` is driven by `fabric.mod.json`), and
when no candidate is present and the `MANIFEST.MF` fallback flag is off it
raises a per-archive error. -/
theorem get_manifest_first_present :
    (∀ (archive : List String) (b : Bool) (k : Nat) (hk : k < paths_to_try.length),
        paths_to_try.get ⟨k, hk⟩ ∈ archive →
        (∀ q ∈ paths_to_try.take k, q ∉ archive) →
        get_manifest archive b = Except.ok (paths_to_try.get ⟨k, hk⟩))
    ∧ (∀ (archive : List String) (b : Bool),
        "fabric.mod.json" ∈ archive →
        get_manifest archive b = Except.ok "fabric.mod.json")
    ∧ (∀ archive : List String,
        (∀ q ∈ paths_to_try, q ∉ archive) →
        get_manifest archive false = Except.error "No manifest found") := by
  refine ⟨?_, ?_, ?_⟩
  · intro archive b k hk hmem hbefore
    unfold get_manifest
    rw [find_first_member_eq_get archive paths_to_try k hk hmem hbefore]
  · intro archive b hmem
    unfold get_manifest
    rw [find_first_member_eq_get archive paths_to_try 0 (by decide) hmem
      (fun q hq => by cases hq)]
    rfl
  · intro archive h
    unfold get_manifest
    rw [find_first_member_eq_none archive paths_to_try h]
    rfl

/-- Witness for C3: an archive holding both `pack.mcmeta` and
`fabric.mod.json` resolves to `fabric.mod.json` (via both the general and the
specialized conjunct), and an archive with none of the candidates errors. -/
theorem get_manifest_first_present_witness :
    get_manifest ["pack.mcmeta", "fabric.mod.json"] false
      = Except.ok (paths_to_try.get ⟨0, by decide⟩)
    ∧ get_manifest ["pack.mcmeta", "fabric.mod.json"] false
      = Except.ok "fabric.mod.json"
    ∧ get_manifest ["something-else.txt"] false
      = Except.error "No manifest found" :=
  ⟨get_manifest_first_present.1 ["pack.mcmeta", "fabric.mod.json"] false 0 (by decide)
      (by decide) (fun q hq => by cases hq),
   get_manifest_first_present.2.1 ["pack.mcmeta", "fabric.mod.json"] false (by decide),
   get_manifest_first_present.2.2 ["something-else.txt"] (by decide)⟩

theorem py_split_ne_nil (sep : Char) : ∀ s : List Char, py_split sep s ≠ [] := by
  intro s
  induction s with
  | nil => simp [py_split]
  | cons c cs ih =>
    by_cases h : c = sep
    · simp [py_split, h]
    · simp only [py_split, if_neg h]
      cases hsp : py_split sep cs with
      | nil => simp
      | cons s0 rest => simp

theorem rfind_eq_none_of_not_mem (sep : Char) :
    ∀ s : List Char, sep ∉ s → rfind sep s = none := by
  intro s
  induction s with
  | nil => intro _; rfl
  | cons c cs ih =>
    intro h
    have hc : ¬(c = sep) := fun he => h (he ▸ List.mem_cons_self c cs)
    have hcs : sep ∉ cs := fun he => h (List.mem_cons_of_mem c he)
    unfold rfind
    rw [ih hcs, if_neg hc]

theorem not_mem_of_rfind_eq_none (sep : Char) :
    ∀ s : List Char, rfind sep s = none → sep ∉ s := by
  intro s
  induction s with
  | nil => intro _ hm; cases hm
  | cons c cs ih =>
    intro h hm
    unfold rfind at h
    cases hr : rfind sep cs with
    | some i => rw [hr] at h; cases h
    | none =>
      rw [hr] at h
      by_cases hc : c = sep
      · rw [if_pos hc] at h; cases h
      · rcases List.mem_cons.mp hm with h1 | h2
        · exact hc h1.symm
        · exact ih hr h2

theorem mem_of_rfind_eq_some (sep : Char) (s : List Char) (i : Nat)
    (h : rfind sep s = some i) : sep ∈ s := by
  by_contra hn
  rw [rfind_eq_none_of_not_mem sep s hn] at h
  cases h

theorem exists_rfind_of_mem (sep : Char) (s : List Char) (h : sep ∈ s) :
    ∃ i, rfind sep s = some i := by
  cases hr : rfind sep s with
  | none => exact absurd h (not_mem_of_rfind_eq_none sep s hr)
  | some i => exact ⟨i, rfl⟩

theorem not_mem_drop_of_rfind (sep : Char) :
    ∀ (s : List Char) (i : Nat), rfind sep s = some i → sep ∉ s.drop (i + 1) := by
  intro s
  induction s with
  | nil => intro i h; cases h
  | cons c cs ih =>
    intro i h
    unfold rfind at h
    cases hr : rfind sep cs with
    | some j =>
      rw [hr] at h
      have hij : i = j + 1 := by cases h; rfl
      subst hij
      show sep ∉ cs.drop (j + 1)
      exact ih j hr
    | none =>
      rw [hr] at h
      by_cases hc : c = sep
      · rw [if_pos hc] at h
        have hi0 : i = 0 := by cases h; rfl
        subst hi0
        show sep ∉ cs.drop 0
        rw [List.drop_zero]
        exact not_mem_of_rfind_eq_none sep cs hr
      · rw [if_neg hc] at h; cases h

theorem py_split_of_not_mem (sep : Char) :
    ∀ s : List Char, sep ∉ s → py_split sep s = [s] := by
  intro s
  induction s with
  | nil => intro _; rfl
  | cons c cs ih =>
    intro h
    have hc : ¬(c = sep) := fun he => h (he ▸ List.mem_cons_self c cs)
    have hcs : sep ∉ cs := fun he => h (List.mem_cons_of_mem c he)
    simp only [py_split, if_neg hc, ih hcs]

theorem two_le_py_split_length_of_mem (sep : Char) :
    ∀ s : List Char, sep ∈ s → 2 ≤ (py_split sep s).length := by
  intro s
  induction s with
  | nil => intro hm; cases hm
  | cons c cs ih =>
    intro hm
    by_cases hc : c = sep
    · simp only [py_split, if_pos hc, List.length_cons]
      have := List.length_pos.mpr (py_split_ne_nil sep cs)
      omega
    · have hcs : sep ∈ cs := by
        rcases List.mem_cons.mp hm with h1 | h2
        · exact absurd h1.symm hc
        · exact h2
      have hlen := ih hcs
      simp only [py_split, if_neg hc]
      cases hsp : py_split sep cs with
      | nil => exact absurd hsp (py_split_ne_nil sep cs)
      | cons s0 rest =>
        rw [hsp] at hlen
        simpa using hlen

theorem getLastD_of_ne_nil {α : Type} :
    ∀ (l : List α), l ≠ [] → ∀ a b : α, l.getLastD a = l.getLastD b := by
  intro l
  induction l with
  | nil => intro h; exact absurd rfl h
  | cons x xs ih =>
    intro _ a b
    rw [List.getLastD_cons, List.getLastD_cons]

theorem getLastD_mem {α : Type} :
    ∀ (l : List α) (d : α), l ≠ [] → l.getLastD d ∈ l := by
  intro l
  induction l with
  | nil => intro d h; exact absurd rfl h
  | cons x xs ih =>
    intro d _
    rw [List.getLastD_cons]
    cases hxs : xs with
    | nil => simp
    | cons y ys =>
      have := ih x (by rw [hxs]; simp)
      rw [hxs] at this
      exact List.mem_cons_of_mem x this

theorem not_mem_of_mem_py_split (sep : Char) :
    ∀ (s t : List Char), t ∈ py_split sep s → sep ∉ t := by
  intro s
  induction s with
  | nil =>
    intro t ht
    have : t = [] := by simpa [py_split] using ht
    subst this
    simp
  | cons c cs ih =>
    intro t ht
    by_cases hc : c = sep
    · rw [show py_split sep (c :: cs) = [] :: py_split sep cs by
        simp [py_split, hc]] at ht
      rcases List.mem_cons.mp ht with h1 | h2
      · subst h1; simp
      · exact ih t h2
    · cases hsp : py_split sep cs with
      | nil => exact absurd hsp (py_split_ne_nil sep cs)
      | cons s0 rest =>
        rw [show py_split sep (c :: cs) = (c :: s0) :: rest by
          simp [py_split, hc, hsp]] at ht
        rcases List.mem_cons.mp ht with h1 | h2
        · subst h1
          intro hm
          rcases List.mem_cons.mp hm with h3 | h4
          · exact hc h3.symm
          · exact ih s0 (by rw [hsp]; exact List.mem_cons_self s0 rest) h4
        · exact ih t (by rw [hsp]; exact List.mem_cons_of_mem s0 h2)

theorem relative_path_of_rfind_some (s : List Char) (i : Nat)
    (h : rfind '/' s = some i) : relative_path s = s.drop (i + 1) := by
  have hnm := not_mem_drop_of_rfind '/' s i h
  have hh : ¬((s.drop (i + 1)).head? = some '/') := by
    intro he
    refine hnm ?_
    cases hd : s.drop (i + 1) with
    | nil => rw [hd] at he; cases he
    | cons a rest =>
      rw [hd] at he
      have ha : a = '/' := Option.some.inj (show some a = some '/' from he)
      rw [ha]
      exact List.mem_cons_self '/' rest
  simp only [relative_path, h, if_neg hh]

theorem relative_path_of_rfind_none (s : List Char)
    (h : rfind '/' s = none) : relative_path s = s := by
  simp only [relative_path, h]

theorem basename_cons_slash (cs : List Char) : basename ('/' :: cs) = basename cs := by
  unfold basename
  rw [show py_split '/' ('/' :: cs) = [] :: py_split '/' cs by simp [py_split]]
  rw [List.getLastD_cons]

theorem relative_path_eq_basename : ∀ path : List Char,
    relative_path path = basename path := by
  intro path
  induction path with
  | nil => rfl
  | cons c cs ih =>
    by_cases hc : c = '/'
    · subst hc
      cases hr : rfind '/' cs with
      | some i =>
        have h1 : rfind '/' ('/' :: cs) = some (i + 1) := by
          unfold rfind; rw [hr]
        rw [relative_path_of_rfind_some ('/' :: cs) (i + 1) h1, basename_cons_slash, ← ih,
          relative_path_of_rfind_some cs i hr]
        rfl
      | none =>
        have h1 : rfind '/' ('/' :: cs) = some 0 := by
          unfold rfind; rw [hr]; simp
        rw [relative_path_of_rfind_some ('/' :: cs) 0 h1, basename_cons_slash, ← ih,
          relative_path_of_rfind_none cs hr]
        rfl
    · cases hr : rfind '/' cs with
      | some i =>
        have hmem : '/' ∈ cs := mem_of_rfind_eq_some '/' cs i hr
        have h1 : rfind '/' (c :: cs) = some (i + 1) := by
          unfold rfind; rw [hr]
        have hbase : basename (c :: cs) = basename cs := by
          unfold basename
          cases hsp : py_split '/' cs with
          | nil => exact absurd hsp (py_split_ne_nil '/' cs)
          | cons s0 rest =>
            have hlen := two_le_py_split_length_of_mem '/' cs hmem
            rw [hsp] at hlen
            have hrest : rest ≠ [] := by
              intro he; rw [he] at hlen; simp at hlen
            rw [show py_split '/' (c :: cs) = (c :: s0) :: rest by
              simp [py_split, hc, hsp]]
            rw [List.getLastD_cons, List.getLastD_cons]
            exact getLastD_of_ne_nil rest hrest (c :: s0) s0
        rw [relative_path_of_rfind_some (c :: cs) (i + 1) h1, hbase, ← ih,
          relative_path_of_rfind_some cs i hr]
        rfl
      | none =>
        have h1 : rfind '/' (c :: cs) = none := by
          unfold rfind; rw [hr]; simp [hc]
        have hnmem : '/' ∉ cs := not_mem_of_rfind_eq_none '/' cs hr
        have hnm2 : '/' ∉ c :: cs := by
          intro hm
          rcases List.mem_cons.mp hm with h3 | h3
          · exact hc h3.symm
          · exact hnmem h3
        rw [relative_path_of_rfind_none (c :: cs) h1]
        unfold basename
        rw [py_split_of_not_mem '/' (c :: cs) hnm2]
        rfl

theorem basename_no_slash (p : List Char) : '/' ∉ basename p :=
  not_mem_of_mem_py_split '/' p (basename p)
    (getLastD_mem (py_split '/' p) [] (py_split_ne_nil '/' p))

theorem basename_idem (p : List Char) : basename (basename p) = basename p := by
  show (py_split '/' (basename p)).getLastD [] = basename p
  rw [py_split_of_not_mem '/' (basename p) (basename_no_slash p)]
  rfl

theorem relative_path_basename (p : List Char) :
    relative_path (basename p) = basename p := by
  rw [relative_path_eq_basename (basename p), basename_idem]

/-- C7: the resolved URL depends only on the path's final path segment —
`get_uri path c = get_uri (basename path) c` for every path and correction —
and in particular `a/b/c/mod.jar` and `mod.jar` resolve identically. -/
theorem get_uri_depends_only_on_basename :
    (∀ (path correction : List Char),
        get_uri path correction = get_uri (basename path) correction)
    ∧ get_uri ("a/b/c/mod.jar".toList) [] = get_uri ("mod.jar".toList) [] := by
  constructor
  · intro path correction
    unfold get_uri
    rw [relative_path_eq_basename path, relative_path_basename path]
  · decide

theorem take_two_of_append_single (l : List Char) (x : Char)
    (h : (l ++ [x]).take 2 ≠ ['/', '/']) : l.take 2 ≠ ['/', '/'] := by
  intro he
  refine h ?_
  cases l with
  | nil => simp at he
  | cons a l2 =>
    cases l2 with
    | nil => simp at he
    | cons b l3 =>
      have hab : a = '/' ∧ b = '/' := by simpa [List.take] using he
      obtain ⟨ha, hb⟩ := hab
      subst ha
      subst hb
      rfl

theorem strip_of_take_one_ne (l : List Char) (h : l.take 1 ≠ ['/']) :
    strip_leading_slashes l = l := by
  cases l with
  | nil => rfl
  | cons b bs =>
    have hb : b ≠ '/' := by
      intro hb
      subst hb
      exact h rfl
    unfold strip_leading_slashes
    rw [if_neg hb]

theorem take_one_of_cons_slash (as : List Char)
    (h : ('/' :: as).take 2 ≠ ['/', '/']) : as.take 1 ≠ ['/'] := by
  intro he
  exact h (by rw [show List.take 2 ('/' :: as) = '/' :: as.take 1 from rfl, he])

theorem strip_cons (c : Char) (cs : List Char) :
    strip_leading_slashes (c :: cs)
      = if c = '/' then strip_leading_slashes cs else c :: cs := rfl

theorem drop_leading_cons (c : Char) (cs : List Char) :
    drop_leading_slash (c :: cs) = if c = '/' then cs else c :: cs := by
  unfold drop_leading_slash
  by_cases hc : c = '/'
  · rw [if_pos (show (c :: cs).head? = some '/' from by rw [hc]; rfl), if_pos hc]
    rfl
  · rw [if_neg (show ¬((c :: cs).head? = some '/') from
        fun he => hc (Option.some.inj (show some c = some '/' from he))),
      if_neg hc]

theorem add_trailing_concat (xs : List Char) (x : Char) :
    add_trailing_slash (xs ++ [x])
      = if x = '/' then xs ++ [x] else (xs ++ [x]) ++ ['/'] := by
  unfold add_trailing_slash
  by_cases hx : x = '/'
  · rw [if_pos (by rw [List.getLast?_concat, hx]), if_pos hx]
  · rw [if_neg (by
      rw [List.getLast?_concat]
      exact fun he => hx (Option.some.inj he)), if_neg hx]

theorem drop_leading_slash_eq_strip (c : List Char) (h : c.take 2 ≠ ['/', '/']) :
    drop_leading_slash c = strip_leading_slashes c := by
  cases c with
  | nil => rfl
  | cons a as =>
    rw [drop_leading_cons, strip_cons]
    by_cases ha : a = '/'
    · rw [if_pos ha, if_pos ha]
      rw [strip_of_take_one_ne as (take_one_of_cons_slash as (ha ▸ h))]
    · rw [if_neg ha, if_neg ha]

theorem add_trailing_slash_eq (d : List Char) (h : d.reverse.take 2 ≠ ['/', '/']) :
    add_trailing_slash d = (strip_leading_slashes d.reverse).reverse ++ ['/'] := by
  cases hd : d.reverse with
  | nil =>
    have : d = [] := by
      have := congrArg List.reverse hd
      rwa [List.reverse_reverse] at this
    subst this
    rfl
  | cons x rest =>
    have hdval : d = rest.reverse ++ [x] := by
      have h3 := congrArg List.reverse hd
      rw [List.reverse_reverse] at h3
      rw [h3, List.reverse_cons]
    rw [hd] at h
    rw [hdval, add_trailing_concat, strip_cons]
    by_cases hx : x = '/'
    · rw [if_pos hx, if_pos hx]
      have hrest : rest.take 1 ≠ ['/'] :=
        take_one_of_cons_slash rest (hx ▸ h)
      rw [strip_of_take_one_ne rest hrest, hx]
    · rw [if_neg hx, if_neg hx]
      rw [List.reverse_cons]

theorem fix_correction_eq_normalized (c : List Char) (hne : c ≠ [])
    (h1 : c.take 2 ≠ ['/', '/']) (h2 : c.reverse.take 2 ≠ ['/', '/']) :
    fix_correction c = normalized_correction c := by
  have hlen : ¬(c.length = 0) := fun he => hne (List.length_eq_zero.mp he)
  unfold fix_correction
  rw [if_pos hlen, drop_leading_slash_eq_strip c h1]
  have h2b : (strip_leading_slashes c).reverse.take 2 ≠ ['/', '/'] := by
    cases c with
    | nil => exact absurd rfl hne
    | cons a as =>
      rw [strip_cons]
      by_cases ha : a = '/'
      · rw [if_pos ha]
        rw [strip_of_take_one_ne as (take_one_of_cons_slash as (ha ▸ h1))]
        rw [List.reverse_cons] at h2
        exact take_two_of_append_single as.reverse a h2
      · rw [if_neg ha]
        exact h2
  rw [add_trailing_slash_eq (strip_leading_slashes c) h2b]
  rfl

/-- C6 (amended): for corrections without a doubled leading or doubled
trailing slash, the resolved URL is the base URL, then the correction
normalized to no leading slash and exactly one trailing slash, then the bare
filename — in particular `/sub`, `sub/` and `sub` all resolve `x.jar` to one
identical URL ending in `.../sub/x.jar`.  (The code strips at most one
leading slash and appends at most one trailing slash, so corrections such as
`//sub` or `sub//` violate the original claim.) -/
theorem get_uri_correction_normalization :
    (∀ (filename c : List Char), c ≠ [] → c.take 2 ≠ ['/', '/'] →
        c.reverse.take 2 ≠ ['/', '/'] →
        get_uri filename c = url_base_path ++ normalized_correction c ++ basename filename)
    ∧ get_uri ("x.jar".toList) ("/sub".toList) = get_uri ("x.jar".toList) ("sub/".toList)
    ∧ get_uri ("x.jar".toList) ("sub".toList) = get_uri ("x.jar".toList) ("sub/".toList) := by
  refine ⟨?_, by decide, by decide⟩
  intro filename c hne hA hB
  unfold get_uri
  rw [fix_correction_eq_normalized c hne hA hB, relative_path_eq_basename]

/-- Witness for C6 at `resolve("x.jar", "/sub")`: the full resolved URL. -/
theorem get_uri_correction_normalization_witness :
    get_uri ("x.jar".toList) ("/sub".toList)
      = "https://example.com/static/content/sub/x.jar".toList :=
  (get_uri_correction_normalization.1 ("x.jar".toList) ("/sub".toList)
    (by decide) (by decide) (by decide)).trans (by decide)

/-- C6 counterexample: for the non-empty correction `//sub` the resolved URL
keeps a leading slash (`.../\x7b/sub/\x7d...`), so it is not the base URL plus the
normalization with no leading slash and exactly one trailing slash. -/
theorem get_uri_double_slash_violates :
    get_uri ("x.jar".toList) ("//sub".toList)
      ≠ url_base_path ++ normalized_correction ("//sub".toList) ++ ("x.jar".toList) := by
  decide

theorem stem_cons_some (x : Char) (xs : List Char) (i : Nat) (h : rfind '.' xs = some i) :
    stem (x :: xs) = x :: stem xs := by
  unfold stem
  rw [show rfind '.' (x :: xs) = some (i + 1) from by unfold rfind; rw [h]]
  rw [h]
  rfl

theorem stem_cons_none (x : Char) (xs : List Char) (h : rfind '.' xs = none) :
    stem (x :: xs) = [] := by
  unfold stem
  by_cases hx : x = '.'
  · rw [show rfind '.' (x :: xs) = some 0 from by unfold rfind; rw [h, if_pos hx]]
    rfl
  · rw [show rfind '.' (x :: xs) = none from by unfold rfind; rw [h, if_neg hx]]

theorem dropLast_cons_cons {α : Type} (a b : α) (l : List α) :
    (a :: b :: l).dropLast = a :: (b :: l).dropLast := rfl

theorem remove_dots_cons (c : Char) (cs : List Char) :
    remove_dots (c :: cs) = if c = '.' then remove_dots cs else c :: remove_dots cs := rfl

theorem flatten_dropLast_py_split :
    ∀ t : List Char, ((py_split '.' t).dropLast).flatten = remove_dots (stem t) := by
  intro t
  induction t with
  | nil => rfl
  | cons x xs ih =>
    cases hsp : py_split '.' xs with
    | nil => exact absurd hsp (py_split_ne_nil '.' xs)
    | cons s0 rest =>
      by_cases hx : x = '.'
      · rw [show py_split '.' (x :: xs) = [] :: s0 :: rest from by
          simp [py_split, hx, hsp]]
        rw [dropLast_cons_cons]
        rw [show ((([] : List Char) :: (s0 :: rest).dropLast)).flatten
            = ((s0 :: rest).dropLast).flatten from by simp]
        cases hr : rfind '.' xs with
        | some i =>
          rw [stem_cons_some x xs i hr]
          rw [remove_dots_cons, if_pos hx]
          rw [← ih, hsp]
        | none =>
          rw [stem_cons_none x xs hr]
          have hnm := not_mem_of_rfind_eq_none '.' xs hr
          have hone := py_split_of_not_mem '.' xs hnm
          rw [hsp] at hone
          have hrest : rest = [] := by
            have := congrArg List.tail hone
            simpa using this
          subst hrest
          rfl
      · rw [show py_split '.' (x :: xs) = (x :: s0) :: rest from by
          simp [py_split, hx, hsp]]
        cases hrt : rest with
        | nil =>
          have hnm : '.' ∉ xs := by
            intro hm
            have h2 := two_le_py_split_length_of_mem '.' xs hm
            rw [hsp, hrt] at h2
            simp at h2
          rw [stem_cons_none x xs (rfind_eq_none_of_not_mem '.' xs hnm)]
          rfl
        | cons r rs =>
          have hmem : '.' ∈ xs := by
            by_contra hnm
            have hone := py_split_of_not_mem '.' xs hnm
            rw [hsp, hrt] at hone
            simp at hone
          obtain ⟨i, hr⟩ := exists_rfind_of_mem '.' xs hmem
          rw [stem_cons_some x xs i hr]
          rw [remove_dots_cons, if_neg hx]
          rw [← ih, hsp, hrt]
          rw [dropLast_cons_cons, dropLast_cons_cons]
          simp

/-- C8 (amended): for every archive path, the derived display name is the
path's final segment with directory components stripped, the extension (the
part from the last dot on) stripped, and — unlike the original claim — any
dots remaining inside the stem removed as well, because the source joins the
dot-separated pieces with an empty separator;  `/path/to/file.jar` still
yields `file`, but a stem containing dots loses them. -/
theorem get_name_from_path_characterization :
    (∀ path : List Char,
        get_name_from_path path = remove_dots (stem (basename path)))
    ∧ get_name_from_path ("/path/to/file.jar".toList) = "file".toList := by
  constructor
  · intro path
    exact flatten_dropLast_py_split (basename path)
  · decide

/-- C8 counterexample: for `a/file.x.jar`, whose stem contains a dot, the
derived name is `filex`, not the claimed extension-stripped segment
`file.x`. -/
theorem get_name_from_path_drops_interior_dots :
    get_name_from_path ("a/file.x.jar".toList) = "filex".toList
    ∧ get_name_from_path ("a/file.x.jar".toList) ≠ "file.x".toList := by
  decide

theorem digits_val_append_single (l : List Nat) (d : Nat) :
    digits_val (l ++ [d]) = 10 * digits_val l + d := by
  unfold digits_val
  rw [List.foldl_append]
  rfl

theorem dec_digits_aux_val : ∀ (fuel n : Nat), n < fuel →
    digits_val (dec_digits_aux fuel n) = n := by
  intro fuel
  induction fuel with
  | zero => intro n h; exact absurd h (Nat.not_lt_zero n)
  | succ f ih =>
    intro n h
    unfold dec_digits_aux
    by_cases h10 : n < 10
    · rw [if_pos h10]
      show 10 * 0 + n = n
      omega
    · rw [if_neg h10]
      have hn : n / 10 < f := by
        have h1 : n / 10 < n := Nat.div_lt_self (by omega) (by omega)
        omega
      rw [digits_val_append_single, ih (n / 10) hn]
      omega

theorem dec_digits_aux_len_ge : ∀ (fuel n : Nat), n < fuel →
    1 ≤ (dec_digits_aux fuel n).length := by
  intro fuel
  induction fuel with
  | zero => intro n h; exact absurd h (Nat.not_lt_zero n)
  | succ f ih =>
    intro n h
    unfold dec_digits_aux
    by_cases h10 : n < 10
    · rw [if_pos h10]; simp
    · rw [if_neg h10]; simp

theorem dec_digits_aux_digits_lt : ∀ (fuel n : Nat), n < fuel →
    ∀ d ∈ dec_digits_aux fuel n, d < 10 := by
  intro fuel
  induction fuel with
  | zero => intro n h; exact absurd h (Nat.not_lt_zero n)
  | succ f ih =>
    intro n h d hd
    unfold dec_digits_aux at hd
    by_cases h10 : n < 10
    · rw [if_pos h10] at hd
      have : d = n := by simpa using hd
      omega
    · rw [if_neg h10] at hd
      have hn : n / 10 < f := by
        have h1 : n / 10 < n := Nat.div_lt_self (by omega) (by omega)
        omega
      rcases List.mem_append.mp hd with h1 | h2
      · exact ih (n / 10) hn d h1
      · have : d = n % 10 := by simpa using h2
        omega

theorem dec_digits_aux_len_le : ∀ (fuel k n : Nat), n < fuel → n < 10 ^ k → 1 ≤ k →
    (dec_digits_aux fuel n).length ≤ k := by
  intro fuel
  induction fuel with
  | zero => intro k n h; exact absurd h (Nat.not_lt_zero n)
  | succ f ih =>
    intro k n h hk h1k
    unfold dec_digits_aux
    by_cases h10 : n < 10
    · rw [if_pos h10]
      simpa using h1k
    · rw [if_neg h10]
      cases k with
      | zero => omega
      | succ k2 =>
        have hk2 : 1 ≤ k2 := by
          by_contra h0
          have hz : k2 = 0 := by omega
          subst hz
          simp at hk
          omega
        have hdiv : n / 10 < 10 ^ k2 := by
          rw [Nat.div_lt_iff_lt_mul (by omega : 0 < 10)]
          calc n < 10 ^ (k2 + 1) := hk
          _ = 10 ^ k2 * 10 := by ring
        have hfuel : n / 10 < f := by
          have h1 : n / 10 < n := Nat.div_lt_self (by omega) (by omega)
          omega
        have hlen := ih k2 (n / 10) hfuel hdiv hk2
        rw [List.length_append]
        simp only [List.length_cons, List.length_nil]
        omega

/-- C9 (amended): the synthesized version string is the decimal rendering of
the 4 random bytes read as one big-endian integer — its digits are base-10
digits whose value is `b0·2²⁴ + b1·2¹⁶ + b2·2⁸ + b3` — but it is not
fixed-width: its length only ranges between 1 and 10 characters. -/
theorem get_rand_version_decimal (b0 b1 b2 b3 : Nat)
    (hb0 : b0 < 256) (hb1 : b1 < 256) (hb2 : b2 < 256) (hb3 : b3 < 256) :
    digits_val (get_rand_version [b0, b1, b2, b3])
        = b0 * 16777216 + b1 * 65536 + b2 * 256 + b3
    ∧ (∀ d ∈ get_rand_version [b0, b1, b2, b3], d < 10)
    ∧ 1 ≤ (get_rand_version [b0, b1, b2, b3]).length
    ∧ (get_rand_version [b0, b1, b2, b3]).length ≤ 10 := by
  have hfold : get_rand_version [b0, b1, b2, b3]
      = dec_digits (b0 * 16777216 + b1 * 65536 + b2 * 256 + b3) := by
    show dec_digits ((((0 * 256 + b0) * 256 + b1) * 256 + b2) * 256 + b3)
        = dec_digits (b0 * 16777216 + b1 * 65536 + b2 * 256 + b3)
    exact congrArg dec_digits (by ring)
  have hpow : (10 : Nat) ^ 10 = 10000000000 := by norm_num
  have hbound : b0 * 16777216 + b1 * 65536 + b2 * 256 + b3 < 10 ^ 10 := by
    rw [hpow]
    omega
  rw [hfold]
  refine ⟨dec_digits_aux_val _ _ (Nat.lt_succ_self _),
    dec_digits_aux_digits_lt _ _ (Nat.lt_succ_self _),
    dec_digits_aux_len_ge _ _ (Nat.lt_succ_self _),
    dec_digits_aux_len_le _ 10 _ (Nat.lt_succ_self _) hbound (by omega)⟩

/-- Witness for C9 at the all-ones byte input. -/
theorem get_rand_version_decimal_witness :
    digits_val (get_rand_version [255, 255, 255, 255]) = 4294967295
    ∧ (get_rand_version [255, 255, 255, 255]).length ≤ 10 :=
  ⟨((get_rand_version_decimal 255 255 255 255 (by decide) (by decide) (by decide)
      (by decide)).1).trans (by norm_num),
   (get_rand_version_decimal 255 255 255 255 (by decide) (by decide) (by decide)
      (by decide)).2.2.2⟩

theorem dec_digits_aux_len_ge_pow : ∀ (fuel n k : Nat), n < fuel → 10 ^ k ≤ n →
    k + 1 ≤ (dec_digits_aux fuel n).length := by
  intro fuel
  induction fuel with
  | zero => intro n k h; exact absurd h (Nat.not_lt_zero n)
  | succ f ih =>
    intro n k h hk
    unfold dec_digits_aux
    by_cases h10 : n < 10
    · rw [if_pos h10]
      have hk0 : k = 0 := by
        by_contra hne
        have h1 : 1 ≤ k := by omega
        have h2 : (10 : Nat) ^ 1 ≤ 10 ^ k := Nat.pow_le_pow_right (by omega) h1
        simp at h2
        omega
      subst hk0
      simp
    · rw [if_neg h10]
      cases k with
      | zero =>
        rw [List.length_append]
        have := dec_digits_aux_len_ge f (n / 10) (by
          have h1 : n / 10 < n := Nat.div_lt_self (by omega) (by omega)
          omega)
        simp only [List.length_cons, List.length_nil]
        omega
      | succ k2 =>
        have hfuel : n / 10 < f := by
          have h1 : n / 10 < n := Nat.div_lt_self (by omega) (by omega)
          omega
        have hdiv : 10 ^ k2 ≤ n / 10 := by
          rw [Nat.le_div_iff_mul_le (by omega : 0 < 10)]
          calc 10 ^ k2 * 10 = 10 ^ (k2 + 1) := by ring
          _ ≤ n := hk
        have hlen := ih (n / 10) k2 hfuel hdiv
        rw [List.length_append]
        simp only [List.length_cons, List.length_nil]
        omega

/-- C9 counterexample: the token is not fixed-width — the all-zero bytes give
a 1-character token while the all-ones bytes give a 10-character one. -/
theorem get_rand_version_not_fixed_width :
    ¬ ((get_rand_version [0, 0, 0, 0]).length
        = (get_rand_version [255, 255, 255, 255]).length) := by
  have h1 : (get_rand_version [0, 0, 0, 0]).length = 1 := by decide
  have h2 : (10 : Nat) ≤ (get_rand_version [255, 255, 255, 255]).length := by
    show (10 : Nat) ≤ (dec_digits_aux (4294967295 + 1) 4294967295).length
    have h3 := dec_digits_aux_len_ge_pow (4294967295 + 1) 4294967295 9
      (Nat.lt_succ_self _) (by norm_num)
    omega
  omega

end StaticT
